import Mathlib

/-!
A verification development for the SearchBot repository: a Telegram group
chat search bot that ingests messages into a MongoDB store and a
Meilisearch index, plans searches from free-text questions, expands hits
with conversational context, groups results into conversations and renders
an answer with per-message deep links.

The Go sources are shallowly embedded: strings are Lean strings viewed as
lists of characters, Unix timestamps and Telegram identifiers are `Int`,
the external Meilisearch index and Mongo collection are association-list
states keyed by the same keys the engine uses, and the completion model and
its JSON decoding are function parameters.
-/

namespace SearchBot

/-! ### Character and string helpers (models of the Go standard library) -/

/-- Left brace character, kept as a named constant. -/
def lbrace : Char := Char.ofNat 123

/-- Right brace character, kept as a named constant. -/
def rbrace : Char := Char.ofNat 125

/-- Double-quote character. -/
def dquote : Char := Char.ofNat 34

/-- Single-quote character. -/
def squote : Char := Char.ofNat 39

/-- Model of Go strings.ToLower, character-wise case folding. -/
def lowerStr (s : String) : String := ⟨s.data.map Char.toLower⟩

/-- Helper for fieldsStr: split a character list around whitespace runs,
carrying the (reversed) current word. -/
def fieldsAux : List Char → List Char → List (List Char)
  | [], acc => if acc.isEmpty then [] else [acc.reverse]
  | c :: rest, acc =>
      if c.isWhitespace then
        if acc.isEmpty then fieldsAux rest [] else acc.reverse :: fieldsAux rest []
      else fieldsAux rest (c :: acc)

/-- Model of Go strings.Fields: the whitespace-separated words of a string. -/
def fieldsStr (s : String) : List String :=
  (fieldsAux s.data []).map (fun l => ⟨l⟩)

/-- Model of Go strings.Contains on character lists. -/
def containsChars (haystack needle : List Char) : Bool :=
  match haystack with
  | [] => needle.isEmpty
  | _ :: rest => needle.isPrefixOf haystack || containsChars rest needle

/-- Model of Go strings.Contains. -/
def containsStr (s sub : String) : Bool := containsChars s.data sub.data

/-- Model of Go strings.HasPrefix. -/
def hasPrefixS (p s : String) : Bool := p.data.isPrefixOf s.data

/-- Model of Go strings.HasSuffix. -/
def hasSuffixS (p s : String) : Bool := p.data.isSuffixOf s.data

/-- Model of Go strings.Trim: remove leading and trailing characters that
appear in the cutset. -/
def trimC (cut : List Char) (s : String) : String :=
  ⟨((s.data.dropWhile (fun c => cut.contains c)).reverse.dropWhile
      (fun c => cut.contains c)).reverse⟩

/-- Model of Go strings.TrimSpace. -/
def trimSpaceS (s : String) : String :=
  ⟨((s.data.dropWhile Char.isWhitespace).reverse.dropWhile Char.isWhitespace).reverse⟩

/-- Fuel-based worker for replaceAllChars; each step consumes at least one
input character, so fuel equal to the input length always suffices. -/
def replaceAllAux (pat repl : List Char) : Nat → List Char → List Char
  | 0, l => l
  | _ + 1, [] => []
  | fuel + 1, c :: rest =>
      if pat.isEmpty then c :: replaceAllAux pat repl fuel rest
      else if pat.isPrefixOf (c :: rest) then
        repl ++ replaceAllAux pat repl fuel (List.drop pat.length (c :: rest))
      else c :: replaceAllAux pat repl fuel rest

/-- Model of Go strings.ReplaceAll on character lists; every call site in the
sources uses a non-empty pattern, and for an empty pattern this model leaves
the input unchanged. -/
def replaceAllChars (pat repl : List Char) (l : List Char) : List Char :=
  replaceAllAux pat repl l.length l

/-- Model of Go strings.ReplaceAll. -/
def replaceAllS (s pat repl : String) : String :=
  ⟨replaceAllChars pat.data repl.data s.data⟩

/-! ### Decimal rendering (model of Go fmt %d) -/

/-- Fuel-based worker for natDigitsBE; the number of decimal digits of n is
at most n + 1, so fuel n + 1 always suffices. -/
def natDigitsAux : Nat → Nat → List Char
  | 0, _ => []
  | fuel + 1, n =>
      if n < 10 then [Nat.digitChar n]
      else natDigitsAux fuel (n / 10) ++ [Nat.digitChar (n % 10)]

/-- Big-endian decimal digit characters of a natural number. -/
def natDigitsBE (n : Nat) : List Char := natDigitsAux (n + 1) n

/-- The fuel argument of natDigitsAux is irrelevant as long as it exceeds
the argument. -/
theorem natDigitsAux_eq_BE (n : Nat) : ∀ f, n < f → natDigitsAux f n = natDigitsBE n := by
  induction n using Nat.strong_induction_on with
  | _ n ih =>
    intro f hf
    cases f with
    | zero => omega
    | succ g =>
      by_cases h10 : n < 10
      · simp [natDigitsAux, natDigitsBE, h10]
      · have hd : n / 10 < n := Nat.div_lt_self (by omega) (by omega)
        have h1 := ih _ hd g (by omega)
        have h2 := ih _ hd n (by omega)
        show natDigitsAux (g + 1) n = natDigitsAux (n + 1) n
        simp only [natDigitsAux, h10, if_false]
        rw [h1, h2]

/-- The recursion equation for natDigitsBE. -/
theorem natDigitsBE_eq (n : Nat) :
    natDigitsBE n =
      if n < 10 then [Nat.digitChar n]
      else natDigitsBE (n / 10) ++ [Nat.digitChar (n % 10)] := by
  by_cases h10 : n < 10
  · simp [natDigitsBE, natDigitsAux, h10]
  · have hd : n / 10 < n := Nat.div_lt_self (by omega) (by omega)
    show natDigitsAux (n + 1) n = _
    simp only [natDigitsAux, h10, if_false]
    rw [natDigitsAux_eq_BE _ n (by omega)]

/-- Decimal string of a natural number. -/
def natToDec (n : Nat) : String := ⟨natDigitsBE n⟩

/-- Decimal string of an integer, as Go fmt.Sprintf with the %d verb
renders it. -/
def intToDec (i : Int) : String :=
  if i < 0 then ⟨'-' :: natDigitsBE i.natAbs⟩ else natToDec i.toNat

/-! ### The Message model (internal/models/message.go) -/

/-- Model of models.Message: one chat utterance. The creation timestamp is
kept as a Unix timestamp in seconds, which is how the index stores it. -/
structure Message where
  messageID : Int
  chatID : Int
  userID : Int
  username : String
  text : String
  createdAt : Int
deriving DecidableEq

/-- Model of Message.GetSearchID: the identity key
chatID-messageID used as Meilisearch primary key. -/
def Message.getSearchID (m : Message) : String :=
  intToDec m.chatID ++ "-" ++ intToDec m.messageID

/-! ### Deep-link chat suffix (HandleAskCommand, src/unnamed/part_008) -/

/-- Model of the chat-id suffix computation in HandleAskCommand: render the
chat id in decimal, strip a leading -100, or else strip a single
leading minus sign. -/
def deriveSuffix (chatID : Int) : String :=
  let s := intToDec chatID
  if hasPrefixS "-100" s then ⟨s.data.drop 4⟩
  else if hasPrefixS "-" s then ⟨s.data.drop 1⟩
  else s

/-- Big-endian decimal digits of b zero-padded to width k (only the k lowest
decimal digits of b are rendered). -/
def padDigits : Nat → Nat → List Char
  | 0, _ => []
  | k + 1, b => padDigits k (b / 10) ++ [Nat.digitChar (b % 10)]

/-- Splitting the decimal rendering of a * 10 ^ k + b into the rendering of a
followed by the k-digit zero-padded rendering of b. -/
theorem natDigitsBE_mul_pow_add (a k : Nat) :
    ∀ b, 0 < a → b < 10 ^ k →
      natDigitsBE (a * 10 ^ k + b) = natDigitsBE a ++ padDigits k b := by
  induction k with
  | zero =>
    intro b _ hb
    have hb0 : b = 0 := by omega
    subst hb0
    simp [padDigits]
  | succ k ih =>
    intro b ha hb
    have hrepr : a * 10 ^ (k + 1) + b = 10 * (a * 10 ^ k) + b := by ring
    have hten : (10 : Nat) ≤ 10 ^ (k + 1) := by
      calc (10 : Nat) = 10 ^ 1 := by norm_num
      _ ≤ 10 ^ (k + 1) := Nat.pow_le_pow_right (by omega) (by omega)
    have hbig : ¬ (a * 10 ^ (k + 1) + b < 10) := by
      have : 10 ^ (k + 1) ≤ a * 10 ^ (k + 1) := Nat.le_mul_of_pos_left _ ha
      omega
    rw [natDigitsBE_eq, if_neg hbig]
    have hdiv : (a * 10 ^ (k + 1) + b) / 10 = a * 10 ^ k + b / 10 := by
      rw [hrepr, Nat.mul_add_div (by omega)]
    have hmod : (a * 10 ^ (k + 1) + b) % 10 = b % 10 := by
      rw [hrepr, Nat.mul_add_mod]
    have hblt : b / 10 < 10 ^ k := by
      rw [Nat.div_lt_iff_lt_mul (by omega)]
      calc b < 10 ^ (k + 1) := hb
      _ = 10 ^ k * 10 := by ring
    rw [hdiv, hmod, ih (b / 10) ha hblt]
    simp [padDigits, List.append_assoc]

/-- Zero-padding to width k + 1 is the identity on numbers with exactly
k + 1 decimal digits. -/
theorem padDigits_eq_natDigitsBE (k : Nat) :
    ∀ b, 10 ^ k ≤ b → b < 10 ^ (k + 1) → padDigits (k + 1) b = natDigitsBE b := by
  induction k with
  | zero =>
    intro b h1 h2
    have h2' : b < 10 := by simpa using h2
    show padDigits 0 (b / 10) ++ [Nat.digitChar (b % 10)] = natDigitsBE b
    rw [natDigitsBE_eq b, if_pos h2', Nat.mod_eq_of_lt h2']
    simp [padDigits]
  | succ k ih =>
    intro b h1 h2
    have hd1 : 10 ^ k ≤ b / 10 := by
      rw [Nat.le_div_iff_mul_le (by omega)]
      calc 10 ^ k * 10 = 10 ^ (k + 1) := by ring
      _ ≤ b := h1
    have hd2 : b / 10 < 10 ^ (k + 1) := by
      rw [Nat.div_lt_iff_lt_mul (by omega)]
      calc b < 10 ^ (k + 2) := h2
      _ = 10 ^ (k + 1) * 10 := by ring
    have hbig : ¬ (b < 10) := by
      have : (10 : Nat) ≤ 10 ^ (k + 1) := by
        calc (10 : Nat) = 10 ^ 1 := by norm_num
        _ ≤ 10 ^ (k + 1) := Nat.pow_le_pow_right (by omega) (by omega)
      omega
    show padDigits (k + 1) (b / 10) ++ [Nat.digitChar (b % 10)] = natDigitsBE b
    rw [natDigitsBE_eq b, if_neg hbig, ih (b / 10) hd1 hd2]

/-- C7 counterexample: for the supergroup id -1000000000123 the
string-stripping rule keeps the zero padding (0000000123) while the
arithmetic transform renders 123, so the two disagree. -/
theorem c7_counterexample :
    (-1000000000123 : Int) < -1000000000000 ∧
    hasPrefixS "-100" (intToDec (-1000000000123)) = true ∧
    deriveSuffix (-1000000000123) ≠
      intToDec (-1 * (-1000000000123 + 1000000000000)) := by
  refine ⟨by norm_num, by decide, by decide⟩

/-- C7 (amended): for every supergroup chat id strictly between
-1010000000000 and -1001000000000 inclusive on the right — exactly those
ids whose derived legacy id has ten decimal digits — the deep-link suffix
obtained by stripping the leading -100 from the decimal string equals the
decimal rendering of -1 * (id + 1000000000000). -/
theorem c7_suffix_arith (id : Int)
    (h1 : -1010000000000 < id) (h2 : id ≤ -1001000000000) :
    deriveSuffix id = intToDec (-1 * (id + 1000000000000)) := by
  have hneg : id < 0 := by omega
  have hp9 : (10 : Nat) ^ 9 = 1000000000 := by norm_num
  have hp10 : (10 : Nat) ^ 10 = 10000000000 := by norm_num
  obtain ⟨M, hMabs, hMlo, hMhi⟩ :
      ∃ M : Nat, id.natAbs = M ∧ 1001000000000 ≤ M ∧ M < 1010000000000 :=
    ⟨id.natAbs, rfl, by omega, by omega⟩
  have habs : (M : Int) = -id := by omega
  obtain ⟨N, hNlo, hNhi, hM⟩ :
      ∃ N : Nat, 10 ^ 9 ≤ N ∧ N < 10 ^ 10 ∧ M = 100 * 10 ^ 10 + N :=
    ⟨M - 1000000000000, by omega, by omega, by omega⟩
  have hdig : natDigitsBE M = natDigitsBE 100 ++ padDigits 10 N := by
    rw [hM]
    exact natDigitsBE_mul_pow_add 100 10 N (by norm_num) hNhi
  have h100 : natDigitsBE 100 = ['1', '0', '0'] := by decide
  have hpad : padDigits 10 N = natDigitsBE N := by
    simpa using padDigits_eq_natDigitsBE 9 N hNlo hNhi
  have hdata : (intToDec id).data = '-' :: '1' :: '0' :: '0' :: natDigitsBE N := by
    rw [intToDec, if_pos hneg, hMabs]
    show '-' :: natDigitsBE M = _
    rw [hdig, h100, hpad]
    rfl
  have hlit : ("-100" : String).data = ['-', '1', '0', '0'] := by decide
  have hpre : hasPrefixS "-100" (intToDec id) = true := by
    rw [hasPrefixS, hdata, hlit]
    simp [List.isPrefixOf]
  have hfinal : deriveSuffix id = ⟨natDigitsBE N⟩ := by
    rw [deriveSuffix]
    simp only [hpre, if_true]
    rw [hdata]
    rfl
  have hNint : -1 * (id + 1000000000000) = (N : Int) := by omega
  rw [hfinal, hNint, intToDec, if_neg (by omega)]
  simp [natToDec]

/-- C7 witness for the amended theorem at the concrete supergroup id
-1004444444444. -/
theorem c7_suffix_arith_witness :
    (-1010000000000 : Int) < -1004444444444 ∧
    (-1004444444444 : Int) ≤ -1001000000000 ∧
    deriveSuffix (-1004444444444) =
      intToDec (-1 * (-1004444444444 + 1000000000000)) :=
  ⟨by norm_num, by norm_num,
    c7_suffix_arith (-1004444444444) (by norm_num) (by norm_num)⟩

/-! ### Keyed upsert (the write discipline of both external stores) -/

section Upsert

variable {α : Type} {κ : Type} (key : α → κ) [DecidableEq κ]

/-- Insert-or-replace write keyed by key: if an element with the same key
exists it is replaced in place, otherwise the new element is appended.  This
is the behavior of Meilisearch AddDocuments under a primary key and of a
Mongo UpdateOne with SetUpsert(true). -/
def upsertBy (l : List α) (a : α) : List α :=
  if l.any (fun x => decide (key x = key a)) then
    l.map (fun x => if key x = key a then a else x)
  else l ++ [a]

theorem upsertBy_any_iff (l : List α) (a : α) :
    l.any (fun x => decide (key x = key a)) = true ↔ ∃ x ∈ l, key x = key a := by
  simp [List.any_eq_true]

theorem upsertBy_mem_self (l : List α) (a : α) : a ∈ upsertBy key l a := by
  rw [upsertBy]
  by_cases h : l.any (fun x => decide (key x = key a)) = true
  · rw [if_pos h]
    obtain ⟨x, hx, hk⟩ := (upsertBy_any_iff key l a).1 h
    exact List.mem_map.2 ⟨x, hx, by simp [hk]⟩
  · rw [if_neg h]
    simp

theorem upsertBy_mem (l : List α) (a x : α) (hx : x ∈ upsertBy key l a) :
    x ∈ l ∨ x = a := by
  rw [upsertBy] at hx
  by_cases h : l.any (fun x => decide (key x = key a)) = true
  · rw [if_pos h] at hx
    obtain ⟨y, hy, hyx⟩ := List.mem_map.1 hx
    by_cases hk : key y = key a
    · right; rw [if_pos hk] at hyx; exact hyx.symm
    · left; rw [if_neg hk] at hyx; exact hyx ▸ hy
  · rw [if_neg h] at hx
    rcases List.mem_append.1 hx with h1 | h1
    · exact Or.inl h1
    · exact Or.inr (List.mem_singleton.1 h1)

theorem upsertBy_mem_of_ne (l : List α) (a x : α) (hx : x ∈ l)
    (hk : key x ≠ key a) : x ∈ upsertBy key l a := by
  rw [upsertBy]
  by_cases h : l.any (fun x => decide (key x = key a)) = true
  · rw [if_pos h]
    exact List.mem_map.2 ⟨x, hx, by rw [if_neg hk]⟩
  · rw [if_neg h]
    exact List.mem_append.2 (Or.inl hx)

theorem upsertBy_key_of_eq (l : List α) (a x : α) (hx : x ∈ upsertBy key l a)
    (hk : key x = key a) : x = a := by
  rw [upsertBy] at hx
  by_cases h : l.any (fun x => decide (key x = key a)) = true
  · rw [if_pos h] at hx
    obtain ⟨y, hy, hyx⟩ := List.mem_map.1 hx
    by_cases hky : key y = key a
    · rw [if_pos hky] at hyx; exact hyx.symm
    · rw [if_neg hky] at hyx; exact absurd (hyx ▸ hk) hky
  · rw [if_neg h] at hx
    rcases List.mem_append.1 hx with h1 | h1
    · exfalso
      exact h ((upsertBy_any_iff key l a).2 ⟨x, h1, hk⟩)
    · exact List.mem_singleton.1 h1

theorem upsertBy_map_key (l : List α) (a : α)
    (h : l.any (fun x => decide (key x = key a)) = true) :
    (upsertBy key l a).map key = l.map key := by
  rw [upsertBy, if_pos h, List.map_map]
  refine List.map_congr_left ?_
  intro x _
  by_cases hk : key x = key a
  · simp [hk]
  · simp [hk]

theorem upsertBy_keys_nodup (l : List α) (a : α)
    (h : (l.map key).Nodup) : ((upsertBy key l a).map key).Nodup := by
  by_cases hany : l.any (fun x => decide (key x = key a)) = true
  · rw [upsertBy_map_key key l a hany]; exact h
  · rw [upsertBy, if_neg hany, List.map_append]
    have hnot : ∀ x ∈ l, key x ≠ key a := by
      intro x hx hk
      exact hany ((upsertBy_any_iff key l a).2 ⟨x, hx, hk⟩)
    simp only [List.map_cons, List.map_nil]
    rw [List.nodup_append]
    refine ⟨h, List.nodup_singleton _, ?_⟩
    intro k hk1 hk2
    obtain ⟨x, hx, hxk⟩ := List.mem_map.1 hk1
    have : k = key a := by simpa using hk2
    exact hnot x hx (hxk.trans this)

theorem upsertBy_exists_key (l : List α) (a : α) (k : κ)
    (h : ∃ v ∈ l, key v = k) : ∃ v ∈ upsertBy key l a, key v = k := by
  obtain ⟨v, hv, hvk⟩ := h
  by_cases hk : key v = key a
  · exact ⟨a, upsertBy_mem_self key l a, by rw [← hk, hvk]⟩
  · exact ⟨v, upsertBy_mem_of_ne key l a v hv hk, hvk⟩

theorem upsertBy_upsertBy (l : List α) (a b : α) (h : key a = key b) :
    upsertBy key (upsertBy key l a) b = upsertBy key l b := by
  by_cases hany : l.any (fun x => decide (key x = key a)) = true
  · have hany2 : l.any (fun x => decide (key x = key b)) = true := by
      obtain ⟨x, hx, hk⟩ := (upsertBy_any_iff key l a).1 hany
      exact (upsertBy_any_iff key l b).2 ⟨x, hx, hk.trans h⟩
    have hmem : a ∈ upsertBy key l a := upsertBy_mem_self key l a
    have hany3 : (upsertBy key l a).any (fun x => decide (key x = key b)) = true :=
      (upsertBy_any_iff key _ b).2 ⟨a, hmem, h⟩
    rw [upsertBy, if_pos hany3]
    conv_lhs => rw [upsertBy, if_pos hany]
    rw [upsertBy, if_pos hany2, List.map_map]
    refine List.map_congr_left ?_
    intro x _
    by_cases hk : key x = key a
    · simp [hk, h, hk.trans h]
    · have hk2 : ¬ key x = key b := fun hc => hk (hc.trans h.symm)
      simp [hk, hk2]
  · have hany2 : ¬ l.any (fun x => decide (key x = key b)) = true := by
      intro hc
      obtain ⟨x, hx, hk⟩ := (upsertBy_any_iff key l b).1 hc
      exact hany ((upsertBy_any_iff key l a).2 ⟨x, hx, hk.trans h.symm⟩)
    have hnot : ∀ x ∈ l, key x ≠ key a := by
      intro x hx hk
      exact hany ((upsertBy_any_iff key l a).2 ⟨x, hx, hk⟩)
    have hany3 : (upsertBy key l a).any (fun x => decide (key x = key b)) = true :=
      (upsertBy_any_iff key _ b).2 ⟨a, upsertBy_mem_self key l a, h⟩
    rw [upsertBy, if_pos hany3]
    conv_lhs => rw [upsertBy, if_neg hany]
    rw [upsertBy, if_neg hany2, List.map_append]
    have hl : l.map (fun x => if key x = key b then b else x) = l := by
      refine List.map_congr_left ?_ |>.trans (List.map_id l)
      intro x hx
      have : ¬ key x = key b := fun hc => hnot x hx (hc.trans h.symm)
      simp [this]
    have ha : [a].map (fun x => if key x = key b then b else x) = [b] := by
      simp [h]
    rw [hl, ha]

theorem upsertBy_length_eq (l : List α) (a b : α) (h : key a = key b) :
    (upsertBy key l a).length = (upsertBy key l b).length := by
  have hiff : l.any (fun x => decide (key x = key a)) =
      l.any (fun x => decide (key x = key b)) := by
    congr 1
    funext x
    rw [h]
  rw [upsertBy, upsertBy, hiff]
  by_cases hany : l.any (fun x => decide (key x = key b)) = true
  · rw [if_pos hany, if_pos hany]
    simp
  · rw [if_neg hany, if_neg hany]
    simp

theorem countP_key_of_mem (l : List α) (v : α)
    (h : (l.map key).Nodup) (hv : v ∈ l) :
    l.countP (fun x => decide (key x = key v)) = 1 := by
  induction l with
  | nil => cases hv
  | cons a t ih =>
    simp only [List.map_cons, List.nodup_cons] at h
    rcases List.mem_cons.1 hv with rfl | hvt
    · have hzero : t.countP (fun x => decide (key x = key v)) = 0 := by
        refine List.countP_eq_zero.2 ?_
        intro x hx
        simp only [decide_eq_true_eq]
        intro hk
        exact h.1 (List.mem_map.2 ⟨x, hx, hk⟩)
      rw [List.countP_cons, hzero]
      simp
    · have hne : ¬ key a = key v := by
        intro hk
        obtain hvk := List.mem_map.2 ⟨v, hvt, rfl⟩
        exact h.1 (by rw [hk]; exact hvk)
      rw [List.countP_cons, ih h.2 hvt]
      simp [hne]

omit [DecidableEq κ] in
theorem eq_of_keys_nodup (l : List α) (h : (l.map key).Nodup) (x y : α)
    (hx : x ∈ l) (hy : y ∈ l) (hk : key x = key y) : x = y := by
  induction l with
  | nil => cases hx
  | cons a t ih =>
    simp only [List.map_cons, List.nodup_cons] at h
    rcases List.mem_cons.1 hx with rfl | hxt
    · rcases List.mem_cons.1 hy with rfl | hyt
      · rfl
      · exact absurd (List.mem_map.2 ⟨y, hyt, hk.symm⟩) h.1
    · rcases List.mem_cons.1 hy with rfl | hyt
      · exact absurd (List.mem_map.2 ⟨x, hxt, hk⟩) h.1
      · exact ih h.2 hxt hyt

end Upsert

/-! ### Ingestion (MeiliSearch.IndexMessage and MongoDB.StoreMessage) -/

/-- The index document IndexMessage builds from a message, with primary key
message_uid rendered as chatID-messageID. -/
structure IndexDoc where
  messageUid : String
  messageId : Int
  chatId : Int
  userId : Int
  username : String
  text : String
  createdAt : Int
deriving DecidableEq

/-- Model of the document construction inside MeiliSearch.IndexMessage. -/
def mkDocument (m : Message) : IndexDoc where
  messageUid := intToDec m.chatID ++ "-" ++ intToDec m.messageID
  messageId := m.messageID
  chatId := m.chatID
  userId := m.userID
  username := m.username
  text := m.text
  createdAt := m.createdAt

/-- Model of MeiliSearch.IndexMessage: build the document and add it to the
index, where AddDocuments under the message_uid primary key is an
insert-or-replace write. -/
def indexMessage (idx : List IndexDoc) (m : Message) : List IndexDoc :=
  upsertBy IndexDoc.messageUid idx (mkDocument m)

/-- The storage identity key of a message: (message_id, chat_id), the
filter MongoDB.StoreMessage upserts on. -/
def storeKey (x : Message) : Int × Int := (x.messageID, x.chatID)

/-- Model of MongoDB.StoreMessage: UpdateOne with a (message_id, chat_id)
filter, a full-document set, and SetUpsert(true). -/
def storeMessage (st : List Message) (m : Message) : List Message :=
  upsertBy storeKey st m

/-- C1: ingesting a message whose identity key (group id, message id)
already exists, the second time with different text, leaves exactly one
document for that key in the index and in storage, that document's fields
equal the later message's, the total count is unchanged from the first
ingestion alone, and the double ingestion equals the single ingestion of
the later message. -/
theorem c1_idempotent_ingestion
    (idx : List IndexDoc) (st : List Message) (m m' : Message)
    (hchat : m.chatID = m'.chatID) (hmsg : m.messageID = m'.messageID)
    (hidx : (idx.map IndexDoc.messageUid).Nodup)
    (hst : (st.map storeKey).Nodup) :
    indexMessage (indexMessage idx m) m' = indexMessage idx m' ∧
    storeMessage (storeMessage st m) m' = storeMessage st m' ∧
    (indexMessage (indexMessage idx m) m').countP
        (fun d => decide (d.messageUid = (mkDocument m').messageUid)) = 1 ∧
    (∀ d ∈ indexMessage (indexMessage idx m) m',
        d.messageUid = (mkDocument m').messageUid → d = mkDocument m') ∧
    (storeMessage (storeMessage st m) m').countP
        (fun x => decide (storeKey x = storeKey m')) = 1 ∧
    (∀ x ∈ storeMessage (storeMessage st m) m',
        storeKey x = storeKey m' → x = m') ∧
    (indexMessage (indexMessage idx m) m').length = (indexMessage idx m).length ∧
    (storeMessage (storeMessage st m) m').length = (storeMessage st m).length := by
  have hkey : (mkDocument m).messageUid = (mkDocument m').messageUid := by
    simp [mkDocument, hchat, hmsg]
  have hkey2 : storeKey m = storeKey m' := by
    simp [storeKey, hchat, hmsg]
  have hidx1 : indexMessage (indexMessage idx m) m' = indexMessage idx m' :=
    upsertBy_upsertBy IndexDoc.messageUid idx (mkDocument m) (mkDocument m') hkey
  have hst1 : storeMessage (storeMessage st m) m' = storeMessage st m' :=
    upsertBy_upsertBy storeKey st m m' hkey2
  have hidxn : ((indexMessage idx m').map IndexDoc.messageUid).Nodup :=
    upsertBy_keys_nodup IndexDoc.messageUid idx (mkDocument m') hidx
  have hstn : ((storeMessage st m').map storeKey).Nodup :=
    upsertBy_keys_nodup storeKey st m' hst
  refine ⟨hidx1, hst1, ?_, ?_, ?_, ?_, ?_, ?_⟩
  · rw [hidx1]
    exact countP_key_of_mem IndexDoc.messageUid _ _ hidxn
      (upsertBy_mem_self IndexDoc.messageUid idx (mkDocument m'))
  · intro d hd hduid
    rw [hidx1] at hd
    exact upsertBy_key_of_eq IndexDoc.messageUid idx (mkDocument m') d hd hduid
  · rw [hst1]
    exact countP_key_of_mem storeKey _ _ hstn
      (upsertBy_mem_self storeKey st m')
  · intro x hx hxk
    rw [hst1] at hx
    exact upsertBy_key_of_eq storeKey st m' x hx hxk
  · rw [hidx1]
    exact upsertBy_length_eq IndexDoc.messageUid idx (mkDocument m') (mkDocument m) hkey.symm
  · rw [hst1]
    exact upsertBy_length_eq storeKey st m' m hkey2.symm

/-- C1 witness: re-ingesting message (chat 5, id 1) with edited text into an
initially empty index and store. -/
theorem c1_idempotent_ingestion_witness :
    ((⟨1, 5, 9, "alice", "hello", 0⟩ : Message).chatID =
      (⟨1, 5, 9, "alice", "edited", 0⟩ : Message).chatID) ∧
    ((⟨1, 5, 9, "alice", "hello", 0⟩ : Message).messageID =
      (⟨1, 5, 9, "alice", "edited", 0⟩ : Message).messageID) ∧
    indexMessage (indexMessage [] ⟨1, 5, 9, "alice", "hello", 0⟩)
        ⟨1, 5, 9, "alice", "edited", 0⟩ =
      indexMessage [] ⟨1, 5, 9, "alice", "edited", 0⟩ :=
  ⟨rfl, rfl,
    (c1_idempotent_ingestion [] [] ⟨1, 5, 9, "alice", "hello", 0⟩
      ⟨1, 5, 9, "alice", "edited", 0⟩ rfl rfl (by decide) (by decide)).1⟩

/-- C9, behavior at the failing input: ingesting a media-only message with
empty body text adds a document to the index (and a record to storage)
instead of skipping it, so the index grows by one slot. -/
theorem c9_empty_text_indexed :
    indexMessage [] ⟨7, -42, 3, "bob", "", 100⟩ =
      [mkDocument ⟨7, -42, 3, "bob", "", 100⟩] ∧
    (mkDocument ⟨7, -42, 3, "bob", "", 100⟩).text = "" ∧
    (indexMessage [] ⟨7, -42, 3, "bob", "", 100⟩).length = 1 ∧
    storeMessage [] ⟨7, -42, 3, "bob", "", 100⟩ = [⟨7, -42, 3, "bob", "", 100⟩] :=
  ⟨rfl, rfl, rfl, rfl⟩

/-! ### Term extraction and reply heuristics (src/unnamed/part_008) -/

/-- The stop-word table of isCommonWord. -/
def commonWords : List String :=
  ["the", "be", "to", "of", "and",
   "a", "in", "that", "have", "i",
   "it", "for", "not", "on", "with",
   "he", "as", "you", "do", "at",
   "this", "but", "his", "by", "from",
   "they", "we", "say", "her", "she",
   "or", "an", "will", "my", "one",
   "all", "would", "there", "their", "what",
   "was", "were", "been", "being", "into",
   "who", "whom", "whose", "which", "where",
   "when", "why", "how", "any", "some",
   "can", "could", "may", "might", "must",
   "shall", "should", "about", "many", "most",
   "other", "such", "than", "then", "these",
   "those", "only", "very", "also", "just",
   "know", "like", "time", "make", "see",
   "find", "want", "does", "need", "going",
   "after", "again", "our", "well", "way",
   "even", "new", "because", "give", "day",
   "anyone", "anybody", "anything", "everyone",
   "everybody", "everything", "someone", "somebody",
   "something", "nothing", "nobody", "none"]

/-- Model of isCommonWord: membership in the stop-word table after case
folding. -/
def isCommonWord (w : String) : Bool := commonWords.contains (lowerStr w)

/-- The punctuation cutset trimmed from words in extractSignificantTerms. -/
def termCutset : List Char :=
  ['.', ',', '!', '?', '(', ')', '[', ']', lbrace, rbrace, ':', ';', dquote, squote]

/-- Model of extractSignificantTerms: lower-case the text, split into
fields, trim punctuation, and keep words longer than three characters that
are not stop words. -/
def extractSignificantTerms (text : String) : List String :=
  ((fieldsStr (lowerStr text)).map (fun w => trimC termCutset w)).filter
    (fun w => decide (w.length > 3) && !isCommonWord w)

/-- Model of hasCommonTerms: the two term lists share a term exactly, or
share a substring match between terms longer than three characters. -/
def hasCommonTerms (terms1 terms2 : List String) : Bool :=
  terms2.any (fun term =>
    terms1.contains term ||
    terms1.any (fun term1 =>
      decide (term1.length > 3) && decide (term.length > 3) &&
      (containsStr term1 term || containsStr term term1)))

/-- Model of isDirectReply: a short (fewer than five words) response to a
message ending in a question mark, or a message whose words contain a
significant word of the previous message as a substring. -/
def isDirectReply (prevText currText : String) : Bool :=
  let prev := lowerStr prevText
  let curr := lowerStr currText
  (hasSuffixS "?" prev && decide ((fieldsStr curr).length < 5)) ||
  ((fieldsStr curr).any (fun cw =>
    ((fieldsStr prev).filter
        (fun w => decide (w.length > 3) && !isCommonWord w)).any
      (fun pw => containsStr (lowerStr cw) (lowerStr pw))))

/-! ### Conversation grouping (groupMessagesByContext, src/unnamed/part_008,
and groupMessagesByConversation, src/unnamed/part_007) -/

/-- The pairwise relation of the groupMessagesByContext loop: time
proximity within the two-minute conversation timeout, a direct reply, or
shared significant terms. -/
def isRelated (prev curr : Message) : Bool :=
  decide (curr.createdAt - prev.createdAt ≤ 120) ||
  isDirectReply prev.text curr.text ||
  hasCommonTerms (extractSignificantTerms prev.text)
    (extractSignificantTerms curr.text)

/-- The ascending-timestamp order the grouper sorts by. -/
def timeLE (a b : Message) : Prop := a.createdAt ≤ b.createdAt

instance timeLE_dec : DecidableRel timeLE := fun a b => Int.decLe a.createdAt b.createdAt

instance timeLE_total : IsTotal Message timeLE := ⟨fun a b => Int.le_total a.createdAt b.createdAt⟩

instance timeLE_trans : IsTrans Message timeLE := ⟨fun _ _ _ h1 h2 => le_trans h1 h2⟩

/-- Model of the internal ascending sort by CreatedAt (sort.Slice with a
Before comparison); insertion sort is a deterministic model of it that
agrees with any sort on the resulting non-decreasing order. -/
def sortByTime (msgs : List Message) : List Message :=
  List.insertionSort timeLE msgs

/-- The accumulator loop shared by both groupers: prev is the previous
message, current the open conversation (which always contains prev as its
last element); when the relation fails the open conversation is flushed
and a new one starts with the current message. -/
def groupGo (r : Message → Message → Bool) (prev : Message)
    (current : List Message) : List Message → List (List Message)
  | [] => [current]
  | m :: rest =>
      if r prev m then groupGo r m (current ++ [m]) rest
      else current :: groupGo r m [m] rest

/-- The single left-to-right grouping pass over an (already sorted) list. -/
def groupScan (r : Message → Message → Bool) : List Message → List (List Message)
  | [] => []
  | m :: rest => groupGo r m [m] rest

/-- Model of groupMessagesByContext: sort by time, then group adjacent
messages related by time proximity, direct reply, or shared terms.  The
relevanceCriteria argument is accepted and ignored, as in the source. -/
def groupMessagesByContext (messages : List Message)
    (_relevanceCriteria : String) : List (List Message) :=
  groupScan isRelated (sortByTime messages)

/-- Model of groupMessagesByConversation (src/unnamed/part_007): sort by
time, then group adjacent messages within a five-minute timeout. -/
def groupMessagesByConversation (messages : List Message) : List (List Message) :=
  groupScan (fun prev curr => decide (curr.createdAt - prev.createdAt ≤ 300))
    (sortByTime messages)

/-- Prepend a list of messages onto the head chunk of a chunk list. -/
def consHead (pre : List Message) : List (List Message) → List (List Message)
  | [] => [pre]
  | c :: cs => (pre ++ c) :: cs

theorem groupGo_pre (r : Message → Message → Bool) :
    ∀ (t : List Message) (prev : Message) (pre cur : List Message),
      groupGo r prev (pre ++ cur) t = consHead pre (groupGo r prev cur t) := by
  intro t
  induction t with
  | nil => intro prev pre cur; simp [groupGo, consHead]
  | cons m rest ih =>
    intro prev pre cur
    by_cases h : r prev m
    · simp only [groupGo, h, if_true]
      rw [List.append_assoc pre cur [m], ih m pre (cur ++ [m])]
    · simp [groupGo, h, consHead]

theorem groupGo_ne_nil (r : Message → Message → Bool) :
    ∀ (t : List Message) (prev : Message) (cur : List Message),
      groupGo r prev cur t ≠ [] := by
  intro t
  induction t with
  | nil => intro prev cur; simp [groupGo]
  | cons m rest ih =>
    intro prev cur
    by_cases h : r prev m
    · simpa [groupGo, h] using ih m (cur ++ [m])
    · simp [groupGo, h]

theorem groupGo_first_chunk (r : Message → Message → Bool)
    (t : List Message) (prev : Message) (cur : List Message) :
    ∃ d cs, groupGo r prev cur t = (cur ++ d) :: cs := by
  cases hg : groupGo r prev ([] : List Message) t with
  | nil => exact absurd hg (groupGo_ne_nil r t prev [])
  | cons c cs =>
    refine ⟨c, cs, ?_⟩
    have : groupGo r prev (cur ++ []) t = consHead cur (groupGo r prev [] t) :=
      groupGo_pre r t prev cur []
    rw [List.append_nil] at this
    rw [this, hg]
    rfl

theorem groupScan_cons_related (r : Message → Message → Bool)
    (a b : Message) (t : List Message) (h : r a b = true) :
    groupScan r (a :: b :: t) = consHead [a] (groupScan r (b :: t)) := by
  show groupGo r a [a] (b :: t) = _
  simp only [groupGo, h, if_true]
  exact groupGo_pre r t b [a] [b]

theorem groupScan_cons_unrelated (r : Message → Message → Bool)
    (a b : Message) (t : List Message) (h : r a b = false) :
    groupScan r (a :: b :: t) = [a] :: groupScan r (b :: t) := by
  show groupGo r a [a] (b :: t) = _
  simp only [groupGo, h, Bool.false_eq_true, if_false]
  rfl

theorem groupScan_adjacent_related (r : Message → Message → Bool) :
    ∀ (i : Nat) (l : List Message) (a b : Message),
      l.get? i = some a → l.get? (i + 1) = some b → r a b = true →
      ∃ cs1 c cs2 k, groupScan r l = cs1 ++ c :: cs2 ∧
        c.get? k = some a ∧ c.get? (k + 1) = some b := by
  intro i
  induction i with
  | zero =>
    intro l a b ha hb hr
    cases l with
    | nil => simp at ha
    | cons x l' =>
      have hx : x = a := by simpa using ha
      cases l' with
      | nil => simp at hb
      | cons y t =>
        have hy : y = b := by simpa using hb
        subst hx
        subst hy
        rw [groupScan_cons_related r x y t hr]
        obtain ⟨d, cs, hd⟩ := groupGo_first_chunk r t y [y]
        have hscan : groupScan r (y :: t) = (y :: d) :: cs := by
          show groupGo r y [y] t = _
          simpa using hd
        rw [hscan]
        exact ⟨[], x :: y :: d, cs, 0, by simp [consHead], rfl, rfl⟩
  | succ i ih =>
    intro l a b ha hb hr
    cases l with
    | nil => simp at ha
    | cons x l' =>
      have ha' : l'.get? i = some a := by simpa using ha
      have hb' : l'.get? (i + 1) = some b := by simpa using hb
      cases l' with
      | nil => simp at ha'
      | cons y t =>
        obtain ⟨cs1, c, cs2, k, hscan, hck, hck1⟩ := ih (y :: t) a b ha' hb' hr
        by_cases hxy : r x y = true
        · rw [groupScan_cons_related r x y t hxy, hscan]
          cases cs1 with
          | nil =>
            refine ⟨[], x :: c, cs2, k + 1, by simp [consHead], ?_, ?_⟩
            · simpa using hck
            · simpa using hck1
          | cons c₀ cs1' =>
            exact ⟨(x :: c₀) :: cs1', c, cs2, k, by simp [consHead], hck, hck1⟩
        · rw [groupScan_cons_unrelated r x y t (by simpa using hxy), hscan]
          exact ⟨[x] :: cs1, c, cs2, k, by simp, hck, hck1⟩

theorem getLast?_cons_of_ne_nil {x a : Message} {c : List Message}
    (h : c.getLast? = some a) : (x :: c).getLast? = some a := by
  cases c with
  | nil => simp at h
  | cons d ds => rw [List.getLast?_cons_cons]; exact h

theorem groupScan_adjacent_unrelated (r : Message → Message → Bool) :
    ∀ (i : Nat) (l : List Message) (a b : Message),
      l.get? i = some a → l.get? (i + 1) = some b → r a b = false →
      ∃ cs1 c1 c2 cs2, groupScan r l = cs1 ++ c1 :: c2 :: cs2 ∧
        c1.getLast? = some a ∧ c2.head? = some b := by
  intro i
  induction i with
  | zero =>
    intro l a b ha hb hr
    cases l with
    | nil => simp at ha
    | cons x l' =>
      have hx : x = a := by simpa using ha
      cases l' with
      | nil => simp at hb
      | cons y t =>
        have hy : y = b := by simpa using hb
        subst hx
        subst hy
        rw [groupScan_cons_unrelated r x y t hr]
        obtain ⟨d, cs, hd⟩ := groupGo_first_chunk r t y [y]
        have hscan : groupScan r (y :: t) = (y :: d) :: cs := by
          show groupGo r y [y] t = _
          simpa using hd
        rw [hscan]
        exact ⟨[], [x], y :: d, cs, rfl, rfl, rfl⟩
  | succ i ih =>
    intro l a b ha hb hr
    cases l with
    | nil => simp at ha
    | cons x l' =>
      have ha' : l'.get? i = some a := by simpa using ha
      have hb' : l'.get? (i + 1) = some b := by simpa using hb
      cases l' with
      | nil => simp at ha'
      | cons y t =>
        obtain ⟨cs1, c1, c2, cs2, hscan, hlast, hhead⟩ := ih (y :: t) a b ha' hb' hr
        by_cases hxy : r x y = true
        · rw [groupScan_cons_related r x y t hxy, hscan]
          cases cs1 with
          | nil =>
            exact ⟨[], x :: c1, c2, cs2, by simp [consHead],
              getLast?_cons_of_ne_nil hlast, hhead⟩
          | cons c₀ cs1' =>
            exact ⟨(x :: c₀) :: cs1', c1, c2, cs2, by simp [consHead], hlast, hhead⟩
        · rw [groupScan_cons_unrelated r x y t (by simpa using hxy), hscan]
          exact ⟨[x] :: cs1, c1, c2, cs2, by simp, hlast, hhead⟩

theorem groupGo_join (r : Message → Message → Bool) :
    ∀ (t : List Message) (prev : Message) (cur : List Message),
      (groupGo r prev cur t).flatten = cur ++ t := by
  intro t
  induction t with
  | nil => intro prev cur; simp [groupGo]
  | cons m rest ih =>
    intro prev cur
    by_cases h : r prev m
    · simp only [groupGo, h, if_true]
      rw [ih]
      simp
    · simp only [groupGo, h, Bool.false_eq_true, if_false, List.flatten]
      rw [ih]
      simp

theorem groupGo_chunks_ne_nil (r : Message → Message → Bool) :
    ∀ (t : List Message) (prev : Message) (cur : List Message), cur ≠ [] →
      ∀ c ∈ groupGo r prev cur t, c ≠ [] := by
  intro t
  induction t with
  | nil =>
    intro prev cur hcur c hc
    simp only [groupGo, List.mem_singleton] at hc
    exact hc ▸ hcur
  | cons m rest ih =>
    intro prev cur hcur c hc
    by_cases h : r prev m
    · simp only [groupGo, h, if_true] at hc
      exact ih m (cur ++ [m]) (by simp) c hc
    · simp only [groupGo, h, Bool.false_eq_true, if_false, List.mem_cons] at hc
      rcases hc with rfl | hc
      · exact hcur
      · exact ih m [m] (by simp) c hc

theorem groupScan_join (r : Message → Message → Bool) (l : List Message) :
    (groupScan r l).flatten = l := by
  cases l with
  | nil => rfl
  | cons m rest =>
    show (groupGo r m [m] rest).flatten = m :: rest
    rw [groupGo_join]
    rfl

theorem groupScan_chunks_ne_nil (r : Message → Message → Bool) (l : List Message) :
    ∀ c ∈ groupScan r l, c ≠ [] := by
  cases l with
  | nil => intro c hc; simp [groupScan] at hc
  | cons m rest => exact groupGo_chunks_ne_nil r rest m [m] (by simp)

/-- C10: the conversations produced by the groupers form an ordered
partition of the input: concatenating them yields every input message
exactly once arranged in ascending timestamp order, and no conversation is
empty.  Stated for both groupMessagesByContext and
groupMessagesByConversation. -/
theorem c10_grouping_partition (messages : List Message) (rc : String) :
    ((groupMessagesByContext messages rc).flatten).Perm messages ∧
    List.Sorted timeLE ((groupMessagesByContext messages rc).flatten) ∧
    (∀ c ∈ groupMessagesByContext messages rc, c ≠ []) ∧
    ((groupMessagesByConversation messages).flatten).Perm messages ∧
    List.Sorted timeLE ((groupMessagesByConversation messages).flatten) ∧
    (∀ c ∈ groupMessagesByConversation messages, c ≠ []) := by
  have hperm : (sortByTime messages).Perm messages :=
    List.perm_insertionSort timeLE messages
  have hsorted : List.Sorted timeLE (sortByTime messages) :=
    List.sorted_insertionSort timeLE messages
  refine ⟨?_, ?_, ?_, ?_, ?_, ?_⟩
  · rw [groupMessagesByContext, groupScan_join]; exact hperm
  · rw [groupMessagesByContext, groupScan_join]; exact hsorted
  · exact groupScan_chunks_ne_nil _ _
  · rw [groupMessagesByConversation, groupScan_join]; exact hperm
  · rw [groupMessagesByConversation, groupScan_join]; exact hsorted
  · exact groupScan_chunks_ne_nil _ _

/-- C3 counterexample: the messages need aws? now and aws?! sit ten
minutes apart, share no significant terms, and show no question-plus-short-
reply pattern (the earlier text does not end with a question mark), yet the
grouper puts them in one conversation, because the word-reference branch of
isDirectReply fires: the raw word aws?! contains the significant raw word
aws? of the earlier message. -/
theorem c3_counterexample :
    ((⟨2, 1, 2, "bob", "aws?!", 600⟩ : Message).createdAt -
      (⟨1, 1, 1, "alice", "need aws? now", 0⟩ : Message).createdAt = 600) ∧
    hasCommonTerms (extractSignificantTerms "need aws? now")
      (extractSignificantTerms "aws?!") = false ∧
    hasSuffixS "?" (lowerStr "need aws? now") = false ∧
    groupMessagesByContext
      [⟨1, 1, 1, "alice", "need aws? now", 0⟩, ⟨2, 1, 2, "bob", "aws?!", 600⟩] "" =
      [[⟨1, 1, 1, "alice", "need aws? now", 0⟩, ⟨2, 1, 2, "bob", "aws?!", 600⟩]] :=
  ⟨by decide, by decide, by decide, by decide⟩

/-- C3 (amended): over the internally sorted input, two adjacent messages
ten seconds apart sharing no significant terms land in the same
conversation, adjacently; and two adjacent messages ten minutes apart that
share no significant terms and satisfy neither direct-reply branch (the
question-plus-short-reply pattern nor the word-reference pattern, i.e.
isDirectReply is false) close one conversation and open the next. -/
theorem c3_grouping_thresholds (l : List Message) (rc : String) (i : Nat)
    (a b : Message) (hsort : List.Sorted timeLE l)
    (ha : l.get? i = some a) (hb : l.get? (i + 1) = some b) :
    (b.createdAt - a.createdAt = 10 →
      hasCommonTerms (extractSignificantTerms a.text)
        (extractSignificantTerms b.text) = false →
      ∃ cs1 c cs2 k, groupMessagesByContext l rc = cs1 ++ c :: cs2 ∧
        c.get? k = some a ∧ c.get? (k + 1) = some b) ∧
    (b.createdAt - a.createdAt = 600 →
      hasCommonTerms (extractSignificantTerms a.text)
        (extractSignificantTerms b.text) = false →
      isDirectReply a.text b.text = false →
      ∃ cs1 c1 c2 cs2, groupMessagesByContext l rc = cs1 ++ c1 :: c2 :: cs2 ∧
        c1.getLast? = some a ∧ c2.head? = some b) := by
  have hscan : groupMessagesByContext l rc = groupScan isRelated l := by
    rw [groupMessagesByContext, sortByTime, hsort.insertionSort_eq]
  constructor
  · intro ht _
    have htime : decide (b.createdAt - a.createdAt ≤ 120) = true := by
      simp [ht]
    have hrel : isRelated a b = true := by
      rw [isRelated, htime]
      simp
    rw [hscan]
    exact groupScan_adjacent_related isRelated i l a b ha hb hrel
  · intro ht hterms hreply
    have htime : decide (b.createdAt - a.createdAt ≤ 120) = false := by
      simp [ht]
    have hrel : isRelated a b = false := by
      rw [isRelated, htime, hterms, hreply]
      simp
    rw [hscan]
    exact groupScan_adjacent_unrelated isRelated i l a b ha hb hrel

/-- C3 witness: two messages ten seconds apart with unrelated texts are
grouped together. -/
theorem c3_grouping_thresholds_witness :
    List.Sorted timeLE
      [⟨1, 1, 1, "alice", "xyzzy", 0⟩, ⟨2, 1, 2, "bob", "qwerte", 10⟩] ∧
    (([⟨1, 1, 1, "alice", "xyzzy", 0⟩, ⟨2, 1, 2, "bob", "qwerte", 10⟩] :
        List Message).get? 0 = some ⟨1, 1, 1, "alice", "xyzzy", 0⟩) ∧
    (([⟨1, 1, 1, "alice", "xyzzy", 0⟩, ⟨2, 1, 2, "bob", "qwerte", 10⟩] :
        List Message).get? 1 = some ⟨2, 1, 2, "bob", "qwerte", 10⟩) ∧
    (∃ cs1 c cs2 k,
      groupMessagesByContext
        [⟨1, 1, 1, "alice", "xyzzy", 0⟩, ⟨2, 1, 2, "bob", "qwerte", 10⟩] "" =
        cs1 ++ c :: cs2 ∧
      c.get? k = some ⟨1, 1, 1, "alice", "xyzzy", 0⟩ ∧
      c.get? (k + 1) = some ⟨2, 1, 2, "bob", "qwerte", 10⟩) :=
  ⟨by decide, rfl, rfl,
    (c3_grouping_thresholds
      [⟨1, 1, 1, "alice", "xyzzy", 0⟩, ⟨2, 1, 2, "bob", "qwerte", 10⟩] "" 0
      ⟨1, 1, 1, "alice", "xyzzy", 0⟩ ⟨2, 1, 2, "bob", "qwerte", 10⟩
      (by decide) rfl rfl).1 (by decide) (by decide)⟩

/-- C4 counterexample: two messages with equal timestamps; their relative
order survives the internal sort, so grouping the sorted list and grouping
its transposition produce different conversation sequences. -/
theorem c4_counterexample :
    (([⟨2, 1, 2, "bob", "bar", 0⟩, ⟨1, 1, 1, "alice", "foo", 0⟩] :
        List Message).Perm
      [⟨1, 1, 1, "alice", "foo", 0⟩, ⟨2, 1, 2, "bob", "bar", 0⟩]) ∧
    groupMessagesByContext
        [⟨2, 1, 2, "bob", "bar", 0⟩, ⟨1, 1, 1, "alice", "foo", 0⟩] "" ≠
      groupMessagesByContext
        [⟨1, 1, 1, "alice", "foo", 0⟩, ⟨2, 1, 2, "bob", "bar", 0⟩] "" :=
  ⟨by decide, by decide⟩

/-- C4 (amended): when the timestamps of the input messages are pairwise
distinct, the grouper's output is invariant under any permutation of its
input (the internal sort then has a unique sorted arrangement). -/
theorem c4_perm_invariant (l l' : List Message) (rc : String)
    (hperm : l.Perm l') (hnodup : (l.map Message.createdAt).Nodup) :
    groupMessagesByContext l rc = groupMessagesByContext l' rc := by
  suffices h : sortByTime l = sortByTime l' by
    rw [groupMessagesByContext, groupMessagesByContext, h]
  haveI : IsAntisymm Message
      (fun a b => a.createdAt ≤ b.createdAt ∧ a.createdAt ≠ b.createdAt) :=
    ⟨fun a b h1 h2 => absurd (le_antisymm h1.1 h2.1) h1.2⟩
  have hps : (sortByTime l).Perm l := List.perm_insertionSort timeLE l
  have hps' : (sortByTime l').Perm l' := List.perm_insertionSort timeLE l'
  have hss : List.Sorted timeLE (sortByTime l) := List.sorted_insertionSort timeLE l
  have hss' : List.Sorted timeLE (sortByTime l') := List.sorted_insertionSort timeLE l'
  have hnodup' : (l'.map Message.createdAt).Nodup :=
    ((hperm.map Message.createdAt).nodup_iff).1 hnodup
  have hns : ((sortByTime l).map Message.createdAt).Nodup :=
    ((hps.map Message.createdAt).nodup_iff).2 hnodup
  have hns' : ((sortByTime l').map Message.createdAt).Nodup :=
    ((hps'.map Message.createdAt).nodup_iff).2 hnodup'
  have hne : List.Pairwise
      (fun a b : Message => a.createdAt ≠ b.createdAt) (sortByTime l) :=
    List.pairwise_map.1 hns
  have hne' : List.Pairwise
      (fun a b : Message => a.createdAt ≠ b.createdAt) (sortByTime l') :=
    List.pairwise_map.1 hns'
  have hsrs : List.Pairwise
      (fun a b : Message => a.createdAt ≤ b.createdAt ∧ a.createdAt ≠ b.createdAt)
      (sortByTime l) := hss.and hne
  have hsrs' : List.Pairwise
      (fun a b : Message => a.createdAt ≤ b.createdAt ∧ a.createdAt ≠ b.createdAt)
      (sortByTime l') := hss'.and hne'
  exact List.eq_of_perm_of_sorted (hps.trans (hperm.trans hps'.symm)) hsrs hsrs'

/-- C4 witness: a concrete two-element permutation with distinct
timestamps groups identically in both orders. -/
theorem c4_perm_invariant_witness :
    (([⟨1, 1, 1, "alice", "foo", 0⟩, ⟨2, 1, 2, "bob", "bar", 5⟩] :
        List Message).Perm
      [⟨2, 1, 2, "bob", "bar", 5⟩, ⟨1, 1, 1, "alice", "foo", 0⟩]) ∧
    (([⟨1, 1, 1, "alice", "foo", 0⟩, ⟨2, 1, 2, "bob", "bar", 5⟩] :
        List Message).map Message.createdAt).Nodup ∧
    groupMessagesByContext
        [⟨1, 1, 1, "alice", "foo", 0⟩, ⟨2, 1, 2, "bob", "bar", 5⟩] "" =
      groupMessagesByContext
        [⟨2, 1, 2, "bob", "bar", 5⟩, ⟨1, 1, 1, "alice", "foo", 0⟩] "" :=
  ⟨by decide, by decide, c4_perm_invariant _ _ "" (by decide) (by decide)⟩

/-! ### Context expansion (fetchMessageContext, internal/search/meilisearch.go) -/

/-- Model of the secondary filtered search issued per hit: documents of the
index whose chat_id equals the hit's and whose created_at lies in the
window, sorted ascending by created_at, capped at ten results. -/
def contextSearch (idx : List Message) (cid lo hi : Int) : List Message :=
  (sortByTime (idx.filter (fun d =>
    decide (d.chatID = cid) && decide (lo ≤ d.createdAt) &&
      decide (d.createdAt ≤ hi)))).take 10

/-- Model of fetchMessageContext: seed a map keyed by GetSearchID with the
original hits, add every context-search result for each hit under the same
key, and return the values sorted ascending by timestamp.  The two-minute
context window is 120 seconds on each side. -/
def fetchMessageContext (idx : List Message) (messages : List Message) : List Message :=
  let init := messages.foldl (fun acc msg => upsertBy Message.getSearchID acc msg) []
  let umap := messages.foldl (fun acc msg =>
    (contextSearch idx msg.chatID (msg.createdAt - 120) (msg.createdAt + 120)).foldl
      (fun acc2 m => upsertBy Message.getSearchID acc2 m) acc) init
  sortByTime umap

theorem contextSearch_mem (idx : List Message) (cid lo hi : Int) (x : Message)
    (hx : x ∈ contextSearch idx cid lo hi) :
    x ∈ idx ∧ x.chatID = cid ∧ lo ≤ x.createdAt ∧ x.createdAt ≤ hi := by
  rw [contextSearch] at hx
  have hx1 := List.take_subset 10 _ hx
  have hx2 := (List.perm_insertionSort timeLE _).subset hx1
  have hx3 := List.mem_filter.1 hx2
  have hcond := hx3.2
  simp only [Bool.and_eq_true, decide_eq_true_eq] at hcond
  exact ⟨hx3.1, hcond.1.1, hcond.1.2, hcond.2⟩

theorem foldl_upsert_mem_src {key : Message → String} :
    ∀ (items acc : List Message) (x : Message),
      x ∈ items.foldl (fun a v => upsertBy key a v) acc → x ∈ acc ∨ x ∈ items := by
  intro items
  induction items with
  | nil => intro acc x hx; exact Or.inl hx
  | cons v vs ih =>
    intro acc x hx
    rcases ih (upsertBy key acc v) x hx with h | h
    · rcases upsertBy_mem key acc v x h with h1 | h1
      · exact Or.inl h1
      · exact Or.inr (h1 ▸ List.mem_cons_self v vs)
    · exact Or.inr (List.mem_cons_of_mem v h)

theorem foldl_upsert_keys_nodup {key : Message → String} :
    ∀ (items acc : List Message), (acc.map key).Nodup →
      ((items.foldl (fun a v => upsertBy key a v) acc).map key).Nodup := by
  intro items
  induction items with
  | nil => intro acc h; exact h
  | cons v vs ih =>
    intro acc h
    exact ih (upsertBy key acc v) (upsertBy_keys_nodup key acc v h)

theorem foldl_upsert_exists_key {key : Message → String} :
    ∀ (items acc : List Message) (k : String),
      (∃ v ∈ acc, key v = k) →
      ∃ v ∈ items.foldl (fun a v => upsertBy key a v) acc, key v = k := by
  intro items
  induction items with
  | nil => intro acc k h; exact h
  | cons v vs ih =>
    intro acc k h
    exact ih (upsertBy key acc v) k (upsertBy_exists_key key acc v k h)

theorem foldl_upsert_exists_key_of_mem {key : Message → String} :
    ∀ (items acc : List Message) (m : Message), m ∈ items →
      ∃ v ∈ items.foldl (fun a v => upsertBy key a v) acc, key v = key m := by
  intro items
  induction items with
  | nil => intro acc m hm; cases hm
  | cons v vs ih =>
    intro acc m hm
    rcases List.mem_cons.1 hm with rfl | hm
    · exact foldl_upsert_exists_key vs (upsertBy key acc m) (key m)
        ⟨m, upsertBy_mem_self key acc m, rfl⟩
    · exact ih (upsertBy key acc v) m hm

theorem phase2_mem (idx : List Message) :
    ∀ (msgs acc : List Message) (x : Message),
      x ∈ msgs.foldl (fun a h =>
        (contextSearch idx h.chatID (h.createdAt - 120) (h.createdAt + 120)).foldl
          (fun a2 m => upsertBy Message.getSearchID a2 m) a) acc →
      x ∈ acc ∨ ∃ h ∈ msgs,
        x ∈ contextSearch idx h.chatID (h.createdAt - 120) (h.createdAt + 120) := by
  intro msgs
  induction msgs with
  | nil => intro acc x hx; exact Or.inl hx
  | cons h hs ih =>
    intro acc x hx
    rcases ih _ x hx with h1 | h1
    · rcases foldl_upsert_mem_src _ acc x h1 with h2 | h2
      · exact Or.inl h2
      · exact Or.inr ⟨h, List.mem_cons_self h hs, h2⟩
    · obtain ⟨h', hh', hx'⟩ := h1
      exact Or.inr ⟨h', List.mem_cons_of_mem h hh', hx'⟩

theorem phase2_keys_nodup (idx : List Message) :
    ∀ (msgs acc : List Message), (acc.map Message.getSearchID).Nodup →
      ((msgs.foldl (fun a h =>
        (contextSearch idx h.chatID (h.createdAt - 120) (h.createdAt + 120)).foldl
          (fun a2 m => upsertBy Message.getSearchID a2 m) a) acc).map
        Message.getSearchID).Nodup := by
  intro msgs
  induction msgs with
  | nil => intro acc h; exact h
  | cons h hs ih =>
    intro acc hnd
    exact ih _ (foldl_upsert_keys_nodup _ acc hnd)

theorem phase2_exists_key (idx : List Message) :
    ∀ (msgs acc : List Message) (k : String), (∃ v ∈ acc, v.getSearchID = k) →
      ∃ v ∈ msgs.foldl (fun a h =>
        (contextSearch idx h.chatID (h.createdAt - 120) (h.createdAt + 120)).foldl
          (fun a2 m => upsertBy Message.getSearchID a2 m) a) acc,
        v.getSearchID = k := by
  intro msgs
  induction msgs with
  | nil => intro acc k h; exact h
  | cons h hs ih =>
    intro acc k hk
    exact ih _ k (foldl_upsert_exists_key _ acc k hk)

/-- C5: for every non-empty list of hits drawn from an index whose identity
keys are unique, context expansion returns a list containing every original
hit, containing only messages that share a hit's chat id and lie within the
two-minute window around that hit, with pairwise distinct identity keys,
sorted ascending by timestamp. -/
theorem c5_context_expansion (idx hits : List Message)
    (_hne : hits ≠ [])
    (hsub : ∀ h ∈ hits, h ∈ idx)
    (hidx : (idx.map Message.getSearchID).Nodup) :
    (∀ h ∈ hits, h ∈ fetchMessageContext idx hits) ∧
    (∀ x ∈ fetchMessageContext idx hits, ∃ h ∈ hits,
      x.chatID = h.chatID ∧ h.createdAt - 120 ≤ x.createdAt ∧
        x.createdAt ≤ h.createdAt + 120) ∧
    ((fetchMessageContext idx hits).map Message.getSearchID).Nodup ∧
    List.Sorted timeLE (fetchMessageContext idx hits) := by
  rw [fetchMessageContext]
  set init := hits.foldl (fun acc msg => upsertBy Message.getSearchID acc msg) []
    with hinit
  set umap := hits.foldl (fun acc msg =>
    (contextSearch idx msg.chatID (msg.createdAt - 120) (msg.createdAt + 120)).foldl
      (fun acc2 m => upsertBy Message.getSearchID acc2 m) acc) init with humap
  have hperm : (sortByTime umap).Perm umap := List.perm_insertionSort timeLE umap
  have humem : ∀ x ∈ umap, x ∈ hits ∨ ∃ h ∈ hits,
      x ∈ contextSearch idx h.chatID (h.createdAt - 120) (h.createdAt + 120) := by
    intro x hx
    rcases phase2_mem idx hits init x hx with h1 | h1
    · rcases foldl_upsert_mem_src hits [] x h1 with h2 | h2
      · cases h2
      · exact Or.inl h2
    · exact Or.inr h1
  have humem_idx : ∀ x ∈ umap, x ∈ idx := by
    intro x hx
    rcases humem x hx with h1 | ⟨h, _, hctx⟩
    · exact hsub x h1
    · exact (contextSearch_mem idx _ _ _ x hctx).1
  refine ⟨?_, ?_, ?_, ?_⟩
  · intro h hh
    have hkey : ∃ v ∈ umap, v.getSearchID = h.getSearchID :=
      phase2_exists_key idx hits init h.getSearchID
        (foldl_upsert_exists_key_of_mem hits [] h hh)
    obtain ⟨v, hv, hvk⟩ := hkey
    have hveq : v = h :=
      eq_of_keys_nodup Message.getSearchID idx hidx v h (humem_idx v hv)
        (hsub h hh) hvk
    exact hperm.symm.subset (hveq ▸ hv)
  · intro x hx
    have hx' : x ∈ umap := hperm.subset hx
    rcases humem x hx' with h1 | ⟨h, hh, hctx⟩
    · exact ⟨x, h1, rfl, by omega, by omega⟩
    · obtain ⟨_, hc, hlo, hhi⟩ := contextSearch_mem idx _ _ _ x hctx
      exact ⟨h, hh, hc, hlo, hhi⟩
  · have : (umap.map Message.getSearchID).Nodup :=
      phase2_keys_nodup idx hits init
        (foldl_upsert_keys_nodup hits [] (by simp))
    exact ((hperm.map Message.getSearchID).nodup_iff).2 this
  · exact List.sorted_insertionSort timeLE umap

/-- C5 witness: one hit in a two-message index; expansion returns both
messages with the stated properties. -/
theorem c5_context_expansion_witness :
    (([⟨1, 5, 1, "alice", "hi", 100⟩] : List Message) ≠ []) ∧
    (∀ h ∈ ([⟨1, 5, 1, "alice", "hi", 100⟩] : List Message),
      h ∈ ([⟨1, 5, 1, "alice", "hi", 100⟩, ⟨2, 5, 2, "bob", "yo", 150⟩] : List Message)) ∧
    (([⟨1, 5, 1, "alice", "hi", 100⟩, ⟨2, 5, 2, "bob", "yo", 150⟩] :
        List Message).map Message.getSearchID).Nodup ∧
    (∀ h ∈ ([⟨1, 5, 1, "alice", "hi", 100⟩] : List Message),
      h ∈ fetchMessageContext
        [⟨1, 5, 1, "alice", "hi", 100⟩, ⟨2, 5, 2, "bob", "yo", 150⟩]
        [⟨1, 5, 1, "alice", "hi", 100⟩]) :=
  ⟨by decide, by decide, by decide,
    (c5_context_expansion
      [⟨1, 5, 1, "alice", "hi", 100⟩, ⟨2, 5, 2, "bob", "yo", 150⟩]
      [⟨1, 5, 1, "alice", "hi", 100⟩]
      (by decide) (by decide) (by decide)).1⟩

/-! ### Supergroup dual-id search (modelled from the spec) -/

/-- De-duplication keeping the first occurrence of each identity key. -/
def dedupByKey (key : Message → String) : List Message → List Message
  | [] => []
  | a :: rest => a :: (dedupByKey key rest).filter (fun x => !(decide (key x = key a)))

theorem dedupByKey_subset (key : Message → String) :
    ∀ (l : List Message) (x : Message), x ∈ dedupByKey key l → x ∈ l := by
  intro l
  induction l with
  | nil => intro x hx; cases hx
  | cons a rest ih =>
    intro x hx
    rw [dedupByKey] at hx
    rcases List.mem_cons.1 hx with h1 | h1
    · exact h1 ▸ List.mem_cons_self a rest
    · exact List.mem_cons_of_mem a (ih x (List.mem_of_mem_filter h1))

theorem dedupByKey_eq_self (key : Message → String) :
    ∀ (l : List Message), (l.map key).Nodup → dedupByKey key l = l := by
  intro l
  induction l with
  | nil => intro _; rfl
  | cons a rest ih =>
    intro h
    simp only [List.map_cons, List.nodup_cons] at h
    rw [dedupByKey, ih h.2]
    congr 1
    refine List.filter_eq_self.2 ?_
    intro x hx
    simp only [Bool.not_eq_true', decide_eq_false_iff_not]
    intro hk
    exact h.1 (List.mem_map.2 ⟨x, hx, hk⟩)

/-- Modelled from the spec: the callers invoke a retriever
SearchMessages(chatID, searchRequest) (src/unnamed/part_004 line 684 and
src/unnamed/part_008 line 81), but no implementation with that signature is
among the sources; spec sections 4.5, 8 and 9 describe it: execute the
query against the group's index and, when the group id is a supergroup id
(a value below -10^12), transparently also probe the derived pre-migration
group id -1*(groupID+10^12), merging and de-duplicating results by
identity key. -/
def searchMessagesGroup (idx : List Message) (q : Message → Bool)
    (groupID : Int) : List Message :=
  let primary := idx.filter (fun m => q m && decide (m.chatID = groupID))
  if groupID < -1000000000000 then
    dedupByKey Message.getSearchID
      (primary ++ idx.filter (fun m =>
        q m && decide (m.chatID = -1 * (groupID + 1000000000000))))
  else primary

/-- C6: a search for supergroup id g below -10^12 returns exactly the
matching messages stored under g or under the derived legacy id
-1*(g+10^12), de-duplicated by identity key — in particular a matching
message stored only under the legacy id appears in the result. -/
theorem c6_supergroup_merge (idx : List Message) (q : Message → Bool) (g : Int)
    (hsg : g < -1000000000000)
    (hidx : (idx.map Message.getSearchID).Nodup) :
    (∀ m ∈ idx, q m = true →
      (m.chatID = g ∨ m.chatID = -1 * (g + 1000000000000)) →
      m ∈ searchMessagesGroup idx q g) ∧
    (∀ m ∈ searchMessagesGroup idx q g, m ∈ idx ∧ q m = true ∧
      (m.chatID = g ∨ m.chatID = -1 * (g + 1000000000000))) ∧
    ((searchMessagesGroup idx q g).map Message.getSearchID).Nodup := by
  have hglegacy : g ≠ -1 * (g + 1000000000000) := by omega
  have hresult : searchMessagesGroup idx q g =
      idx.filter (fun m => q m && decide (m.chatID = g)) ++
      idx.filter (fun m => q m && decide (m.chatID = -1 * (g + 1000000000000))) := by
    rw [searchMessagesGroup]
    simp only [hsg, if_true]
    refine dedupByKey_eq_self Message.getSearchID _ ?_
    rw [List.map_append, List.nodup_append]
    have hA : ((idx.filter (fun m => q m && decide (m.chatID = g))).map
        Message.getSearchID).Nodup :=
      hidx.sublist ((List.filter_sublist idx).map Message.getSearchID)
    have hB : ((idx.filter (fun m =>
        q m && decide (m.chatID = -1 * (g + 1000000000000)))).map
        Message.getSearchID).Nodup :=
      hidx.sublist ((List.filter_sublist idx).map Message.getSearchID)
    refine ⟨hA, hB, ?_⟩
    intro k hk1 hk2
    obtain ⟨x, hx, hxk⟩ := List.mem_map.1 hk1
    obtain ⟨y, hy, hyk⟩ := List.mem_map.1 hk2
    have hxf := List.mem_filter.1 hx
    have hyf := List.mem_filter.1 hy
    have hxy : x = y :=
      eq_of_keys_nodup Message.getSearchID idx hidx x y hxf.1 hyf.1
        (hxk.trans hyk.symm)
    have hxc : x.chatID = g := by
      have := hxf.2
      simp only [Bool.and_eq_true, decide_eq_true_eq] at this
      exact this.2
    have hyc : y.chatID = -1 * (g + 1000000000000) := by
      have := hyf.2
      simp only [Bool.and_eq_true, decide_eq_true_eq] at this
      exact this.2
    rw [hxy] at hxc
    exact hglegacy (hxc.symm.trans hyc)
  refine ⟨?_, ?_, ?_⟩
  · intro m hm hq hc
    rw [hresult]
    rcases hc with hc | hc
    · exact List.mem_append.2 (Or.inl (List.mem_filter.2 ⟨hm, by simp [hq, hc]⟩))
    · exact List.mem_append.2 (Or.inr (List.mem_filter.2 ⟨hm, by simp [hq, hc]⟩))
  · intro m hm
    rw [hresult] at hm
    rcases List.mem_append.1 hm with hm1 | hm1
    · have hf := List.mem_filter.1 hm1
      have := hf.2
      simp only [Bool.and_eq_true, decide_eq_true_eq] at this
      exact ⟨hf.1, this.1, Or.inl this.2⟩
    · have hf := List.mem_filter.1 hm1
      have := hf.2
      simp only [Bool.and_eq_true, decide_eq_true_eq] at this
      exact ⟨hf.1, this.1, Or.inr this.2⟩
  · rw [hresult, List.map_append, List.nodup_append]
    have hA := hidx.sublist
      ((List.filter_sublist (l := idx)
        (p := fun m => q m && decide (m.chatID = g))).map Message.getSearchID)
    have hB := hidx.sublist
      ((List.filter_sublist (l := idx)
        (p := fun m => q m && decide (m.chatID = -1 * (g + 1000000000000)))).map
        Message.getSearchID)
    refine ⟨hA, hB, ?_⟩
    intro k hk1 hk2
    obtain ⟨x, hx, hxk⟩ := List.mem_map.1 hk1
    obtain ⟨y, hy, hyk⟩ := List.mem_map.1 hk2
    have hxf := List.mem_filter.1 hx
    have hyf := List.mem_filter.1 hy
    have hxy : x = y :=
      eq_of_keys_nodup Message.getSearchID idx hidx x y hxf.1 hyf.1
        (hxk.trans hyk.symm)
    have hxc : x.chatID = g := by
      have := hxf.2
      simp only [Bool.and_eq_true, decide_eq_true_eq] at this
      exact this.2
    have hyc : y.chatID = -1 * (g + 1000000000000) := by
      have := hyf.2
      simp only [Bool.and_eq_true, decide_eq_true_eq] at this
      exact this.2
    rw [hxy] at hxc
    exact hglegacy (hxc.symm.trans hyc)

/-- C6 witness: a matching message stored only under the legacy id
1234567890 appears when searching the supergroup id -1001234567890. -/
theorem c6_supergroup_merge_witness :
    ((-1001234567890 : Int) < -1000000000000) ∧
    (([⟨7, 1234567890, 1, "alice", "localstack", 50⟩] :
        List Message).map Message.getSearchID).Nodup ∧
    (⟨7, 1234567890, 1, "alice", "localstack", 50⟩ : Message) ∈
      searchMessagesGroup [⟨7, 1234567890, 1, "alice", "localstack", 50⟩]
        (fun _ => true) (-1001234567890) :=
  ⟨by norm_num, by decide,
    (c6_supergroup_merge [⟨7, 1234567890, 1, "alice", "localstack", 50⟩]
      (fun _ => true) (-1001234567890) (by norm_num) (by decide)).1
      ⟨7, 1234567890, 1, "alice", "localstack", 50⟩ (by decide) rfl
      (Or.inr (by decide))⟩

/-! ### Defensive model-output parsing (cleanJSONResponse in
src/unnamed/part_008 and the strategy cleaning in internal/bot/bot.go) -/

/-- The one-character string holding a left brace. -/
def lbraceStr : String := ⟨[lbrace]⟩

/-- The one-character string holding a right brace. -/
def rbraceStr : String := ⟨[rbrace]⟩

/-- Slice a character list to the span from the first left brace to the
last right brace, when both exist in that order; otherwise leave it
unchanged. -/
def sliceBraces (l : List Char) : List Char :=
  match l.findIdx? (fun c => c == lbrace) with
  | none => l
  | some s =>
      match l.reverse.findIdx? (fun c => c == rbrace) with
      | none => l
      | some ri =>
          let e := l.length - 1 - ri
          if e > s then (l.drop s).take (e + 1 - s) else l

/-- Model of cleanJSONResponse: trim, strip code fences, backticks and
whitespace-control characters, slice to the brace span, trim again. -/
def cleanJSONResponse (response : String) : String :=
  let r := trimSpaceS response
  let r := replaceAllS r "```json" ""
  let r := replaceAllS r "```" ""
  let r := replaceAllS r "`" ""
  let r := replaceAllS r "\n" ""
  let r := replaceAllS r "\r" ""
  let r := replaceAllS r "\t" ""
  trimSpaceS ⟨sliceBraces r.data⟩

/-- Model of the strategy-response cleaning in bot.go HandleAskCommand,
which additionally collapses double spaces. -/
def cleanStrategy (s0 : String) : String :=
  let r := trimSpaceS s0
  let r := replaceAllS r "```json" ""
  let r := replaceAllS r "```" ""
  let r := replaceAllS r "`" ""
  let r := replaceAllS r "\n" ""
  let r := replaceAllS r "\r" ""
  let r := replaceAllS r "\t" ""
  let r := replaceAllS r "  " " "
  trimSpaceS ⟨sliceBraces r.data⟩

/-- The decoded shape of the analysis response: relevant_messages and
explanation. -/
structure Analysis where
  relevantMessages : List String
  explanation : String
deriving DecidableEq

/-- The keyword fallback of HandleAskCommand (src/unnamed/part_008): keep
the messages whose significant terms overlap the question's, rendered as
at-handle-colon-text lines. -/
def fallbackSelect (question : String) (messages : List Message) : List String :=
  (messages.filter (fun m =>
    hasCommonTerms (extractSignificantTerms question)
      (extractSignificantTerms m.text))).map
    (fun m => "@" ++ m.username ++ ": " ++ m.text)

/-- The observable outcome of the analysis phase of the /ask handler. -/
inductive AskOutcome where
  | failed (err : String)
  | noneFound
  | answered (relevantMessages : List String) (explanation : String)
deriving DecidableEq

/-- Model of the analysis-parsing phase of HandleAskCommand
(src/unnamed/part_008 lines 146-188).  decode stands for json.Unmarshal
into the relevant_messages/explanation struct.  On decode failure the
handler recovers with the keyword fallback; a second fallback pass runs
whenever the relevant set is empty; only when the set is still empty does
it reply that nothing was found.  No error outcome is produced at this
stage. -/
def handleAnalysis (decode : String → Option Analysis)
    (analysisRaw question : String) (messages : List Message) : AskOutcome :=
  let analysis := cleanJSONResponse analysisRaw
  let result : Analysis :=
    match decode analysis with
    | some r => r
    | none =>
        let rel := fallbackSelect question messages
        { relevantMessages := rel
          explanation :=
            if rel.length > 0 then
              "Found some messages that might be relevant to your question."
            else "" }
  let result2 : Analysis :=
    if result.relevantMessages.isEmpty then
      { result with relevantMessages := fallbackSelect question messages }
    else result
  if result2.relevantMessages.isEmpty then AskOutcome.noneFound
  else AskOutcome.answered result2.relevantMessages result2.explanation

/-- The observable outcome of the strategy-planning phase of the /ask
handler in internal/bot/bot.go. -/
inductive StrategyOutcome where
  | apology
  | searched (strategy : String)
deriving DecidableEq

/-- Model of the strategy-validation phase of bot.go HandleAskCommand
(lines 74-110): clean the model output; if it does not start with a left
brace and end with a right brace, or fails structural JSON validation
(validJSON stands for json.Unmarshal into a generic map), reply with an
apology and perform no search; otherwise proceed to search with the
cleaned strategy. -/
def handleStrategy (validJSON : String → Bool) (raw : String) : StrategyOutcome :=
  let s := cleanStrategy raw
  if !(hasPrefixS lbraceStr s && hasSuffixS rbraceStr s) then StrategyOutcome.apology
  else if !(validJSON s) then StrategyOutcome.apology
  else StrategyOutcome.searched s

/-- C2 counterexample: in the strategy-planning /ask handler of
internal/bot/bot.go, a model response with no braces yields an apology
reply and no search at all — no keyword fallback runs — even when the
structural validator would accept anything. -/
theorem c2_counterexample :
    handleStrategy (fun _ => true) "I cannot help with that." =
      StrategyOutcome.apology ∧
    ∀ s, handleStrategy (fun _ => true) "I cannot help with that." ≠
      StrategyOutcome.searched s := by
  have h : handleStrategy (fun _ => true) "I cannot help with that." =
      StrategyOutcome.apology := by decide
  refine ⟨h, fun s hs => ?_⟩
  rw [h] at hs
  cases hs

/-- C2 (amended): in the analysis phase of the /ask handler
(src/unnamed/part_008), whenever the cleaned model output fails to decode,
the handler falls back to the local keyword heuristic — the relevant set
becomes exactly the fallback selection — and still replies (with the
selection, or with the nothing-found message when the selection is empty)
rather than aborting; the strategy-planning handler in internal/bot/bot.go
instead answers with an apology and performs no search. -/
theorem c2_parse_fallback (decode : String → Option Analysis)
    (analysisRaw question : String) (messages : List Message)
    (hfail : decode (cleanJSONResponse analysisRaw) = none) :
    handleAnalysis decode analysisRaw question messages =
      (if (fallbackSelect question messages).isEmpty then AskOutcome.noneFound
       else AskOutcome.answered (fallbackSelect question messages)
         "Found some messages that might be relevant to your question.") ∧
    ∀ err, handleAnalysis decode analysisRaw question messages ≠
      AskOutcome.failed err := by
  have hmain : handleAnalysis decode analysisRaw question messages =
      (if (fallbackSelect question messages).isEmpty then AskOutcome.noneFound
       else AskOutcome.answered (fallbackSelect question messages)
         "Found some messages that might be relevant to your question.") := by
    rw [handleAnalysis, hfail]
    by_cases hempty : (fallbackSelect question messages).isEmpty
    · have hlen : ¬ (fallbackSelect question messages).length > 0 := by
        rw [List.isEmpty_iff] at hempty
        simp [hempty]
      simp only [hlen, if_false, hempty, if_true]
    · have hlen : (fallbackSelect question messages).length > 0 := by
        have hne : fallbackSelect question messages ≠ [] := by
          intro hc
          exact hempty (by simp [hc])
        exact List.length_pos.2 hne
      simp only [hlen, if_true, hempty, Bool.false_eq_true, if_false]
  refine ⟨hmain, fun err h => ?_⟩
  rw [hmain] at h
  by_cases hempty : (fallbackSelect question messages).isEmpty
  · rw [if_pos hempty] at h; cases h
  · rw [if_neg hempty] at h; cases h

/-- C2 witness: with a decoder that rejects everything, a question about
localstack recovers through the keyword fallback and returns the matching
message. -/
theorem c2_parse_fallback_witness :
    ((fun _ : String => (none : Option Analysis))
        (cleanJSONResponse "The answer is probably LocalStack!") = none) ∧
    (handleAnalysis (fun _ => none) "The answer is probably LocalStack!"
        "anyone tried localstack?"
        [⟨1, 5, 1, "alice", "localstack helps testing", 10⟩] =
      (if (fallbackSelect "anyone tried localstack?"
            [⟨1, 5, 1, "alice", "localstack helps testing", 10⟩]).isEmpty then
          AskOutcome.noneFound
        else AskOutcome.answered
          (fallbackSelect "anyone tried localstack?"
            [⟨1, 5, 1, "alice", "localstack helps testing", 10⟩])
          "Found some messages that might be relevant to your question.") ∧
      ∀ err, handleAnalysis (fun _ => none) "The answer is probably LocalStack!"
          "anyone tried localstack?"
          [⟨1, 5, 1, "alice", "localstack helps testing", 10⟩] ≠
        AskOutcome.failed err) :=
  ⟨rfl, c2_parse_fallback (fun _ => none) "The answer is probably LocalStack!"
    "anyone tried localstack?"
    [⟨1, 5, 1, "alice", "localstack helps testing", 10⟩] rfl⟩

/-! ### Answer rendering with link entities (HandleAskCommand,
src/unnamed/part_008 lines 190-298) -/

/-- Model of the Telegram message entity recorded per rendered line. -/
structure MessageEntity where
  entityType : String
  offset : Nat
  length : Nat
  url : String
deriving DecidableEq

/-- Model of the deep-link URL built for a message. -/
def mkMessageURL (m : Message) : String :=
  "https://t.me/c/" ++ deriveSuffix m.chatID ++ "/" ++ intToDec m.messageID

/-- The rendered line for the message at conversation index i, message
index j, without the trailing newline: the conversation number on the
first message, then the at-handle and text. -/
def lineBody (i j : Nat) (m : Message) : String :=
  (if j = 0 then natToDec (i + 1) ++ ". " else "") ++
    "@" ++ m.username ++ ": " ++ m.text

/-- The rendered line including its trailing newline, as written into the
response builder. -/
def lineFull (i j : Nat) (m : Message) : String := lineBody i j m ++ "\n"

/-- The fixed header written before the conversation lines. -/
def askHeader : String := "\n\nHere are the relevant discussions:\n\n"

/-- The fixed tip appended after the conversation lines. -/
def askTip : String :=
  "\nTip: Click on any message to jump to that part of the chat history. (Make sure I" ++
    ⟨[squote]⟩ ++ "m an administrator to access message history)"

/-- The inner rendering loop over one conversation: write each line, record
a text_link entity spanning the line minus its newline at the current byte
offset, and advance the offset by the full line length. -/
def renderMsgs (i : Nat) : Nat → List Char → Nat → List MessageEntity →
    List Message → List Char × Nat × List MessageEntity
  | _, resp, off, ents, [] => (resp, off, ents)
  | j, resp, off, ents, m :: rest =>
      renderMsgs i (j + 1) (resp ++ (lineFull i j m).data)
        (off + (lineFull i j m).data.length)
        (ents ++ [⟨"text_link", off, (lineFull i j m).data.length - 1,
          mkMessageURL m⟩]) rest

/-- The outer rendering loop over the conversations: render each
conversation's messages and write a separating newline after every
conversation except the last. -/
def renderConvos (total : Nat) : Nat → List Char → Nat → List MessageEntity →
    List (List Message) → List Char × Nat × List MessageEntity
  | _, resp, off, ents, [] => (resp, off, ents)
  | i, resp, off, ents, c :: rest =>
      let s := renderMsgs i 0 resp off ents c
      if i < total - 1 then
        renderConvos total (i + 1) (s.1 ++ ['\n']) (s.2.1 + 1) s.2.2 rest
      else renderConvos total (i + 1) s.1 s.2.1 s.2.2 rest

/-- Model of the response assembly of HandleAskCommand: explanation, the
fixed header, the numbered conversation lines with their link entities, and
the tip; the base offset starts at the explanation plus header length. -/
def renderAnswer (explanation : String) (convs : List (List Message)) :
    String × List MessageEntity :=
  let resp0 := explanation.data ++ askHeader.data
  let off0 := explanation.length + askHeader.length
  let s := renderConvos convs.length 0 resp0 off0 [] convs
  (⟨s.1 ++ askTip.data⟩, s.2.2)

/-- Extraction of the byte range from off of the given length. -/
def sliceChars (l : List Char) (off len : Nat) : List Char :=
  (l.drop off).take len

theorem sliceChars_append (l t : List Char) (off len : Nat)
    (h : off + len ≤ l.length) :
    sliceChars (l ++ t) off len = sliceChars l off len := by
  rw [sliceChars, sliceChars, List.drop_append_eq_append_drop]
  have h1 : off - l.length = 0 := by omega
  rw [h1, List.drop_zero, List.take_append_eq_append_take]
  have h2 : len - (l.drop off).length = 0 := by
    rw [List.length_drop]
    omega
  rw [h2, List.take_zero, List.append_nil]

/-- A recorded entity is consistent with a response buffer: it lies within
the buffer and its slice is the rendered line (sans newline) of the message
its URL targets. -/
def EntityOK (convs : List (List Message)) (resp : List Char)
    (e : MessageEntity) : Prop :=
  e.offset + e.length ≤ resp.length ∧
  ∃ ci mi conv m, convs.get? ci = some conv ∧ conv.get? mi = some m ∧
    e.url = mkMessageURL m ∧
    sliceChars resp e.offset e.length = (lineBody ci mi m).data

theorem entityOK_append (convs : List (List Message)) (resp t : List Char)
    (e : MessageEntity) (h : EntityOK convs resp e) :
    EntityOK convs (resp ++ t) e := by
  obtain ⟨hb, ci, mi, conv, m, hc, hm, hu, hs⟩ := h
  refine ⟨by simp; omega, ci, mi, conv, m, hc, hm, hu, ?_⟩
  rw [sliceChars_append resp t e.offset e.length hb]
  exact hs

theorem renderMsgs_invariant (convs : List (List Message)) (i : Nat)
    (conv : List Message) (hconv : convs.get? i = some conv) :
    ∀ (ms : List Message) (j : Nat) (resp : List Char) (off : Nat)
      (ents : List MessageEntity),
      (∀ k, ms.get? k = conv.get? (j + k)) →
      off = resp.length →
      (∀ e ∈ ents, EntityOK convs resp e) →
      (renderMsgs i j resp off ents ms).2.1 =
        (renderMsgs i j resp off ents ms).1.length ∧
      ∀ e ∈ (renderMsgs i j resp off ents ms).2.2,
        EntityOK convs (renderMsgs i j resp off ents ms).1 e := by
  intro ms
  induction ms with
  | nil =>
    intro j resp off ents _ hoff hents
    exact ⟨hoff, hents⟩
  | cons m rest ih =>
    intro j resp off ents hget hoff hents
    show (renderMsgs i (j + 1) (resp ++ (lineFull i j m).data)
        (off + (lineFull i j m).data.length)
        (ents ++ [⟨"text_link", off, (lineFull i j m).data.length - 1,
          mkMessageURL m⟩]) rest).2.1 = _ ∧ _
    refine ih (j + 1) (resp ++ (lineFull i j m).data)
      (off + (lineFull i j m).data.length) _ ?_ ?_ ?_
    · intro k
      have := hget (k + 1)
      simpa [Nat.add_assoc, Nat.add_comm 1 k, Nat.add_left_comm] using this
    · simp [hoff]
    · intro e he
      rcases List.mem_append.1 he with h1 | h1
      · exact entityOK_append convs resp _ e (hents e h1)
      · have he0 : e = ⟨"text_link", off, (lineFull i j m).data.length - 1,
            mkMessageURL m⟩ := List.mem_singleton.1 h1
        subst he0
        have hline : (lineFull i j m).data =
            (lineBody i j m).data ++ ['\n'] := by
          rw [lineFull]
          rfl
        have hlen : (lineFull i j m).data.length =
            (lineBody i j m).data.length + 1 := by
          rw [hline]
          simp
        have hm0 : conv.get? j = some m := by
          have := hget 0
          simpa using this.symm
        refine ⟨by simp [hlen]; omega, i, j, conv, m, hconv, hm0, rfl, ?_⟩
        show sliceChars (resp ++ (lineFull i j m).data) off
          ((lineFull i j m).data.length - 1) = _
        rw [sliceChars, hoff, List.drop_left, hline]
        have hlast : ((lineBody i j m).data ++ ['\n']).length - 1 =
            (lineBody i j m).data.length := by simp
        rw [hlast]
        exact List.take_left _ _

theorem renderConvos_invariant (convs : List (List Message)) (total : Nat) :
    ∀ (cs : List (List Message)) (i : Nat) (resp : List Char) (off : Nat)
      (ents : List MessageEntity),
      (∀ k, cs.get? k = convs.get? (i + k)) →
      off = resp.length →
      (∀ e ∈ ents, EntityOK convs resp e) →
      (renderConvos total i resp off ents cs).2.1 =
        (renderConvos total i resp off ents cs).1.length ∧
      ∀ e ∈ (renderConvos total i resp off ents cs).2.2,
        EntityOK convs (renderConvos total i resp off ents cs).1 e := by
  intro cs
  induction cs with
  | nil =>
    intro i resp off ents _ hoff hents
    exact ⟨hoff, hents⟩
  | cons c rest ih =>
    intro i resp off ents hget hoff hents
    have hc : convs.get? i = some c := by
      have := hget 0
      simpa using this.symm
    have hmsgs := renderMsgs_invariant convs i c hc c 0 resp off ents
      (fun k => by simp) hoff hents
    have hshift : ∀ k, rest.get? k = convs.get? (i + 1 + k) := by
      intro k
      have := hget (k + 1)
      simpa [Nat.add_assoc, Nat.add_comm 1 k, Nat.add_left_comm] using this
    simp only [renderConvos]
    by_cases hlt : i < total - 1
    · rw [if_pos hlt]
      refine ih (i + 1) _ _ _ hshift ?_ ?_
      · simp [hmsgs.1]
      · intro e he
        exact entityOK_append convs _ _ e (hmsgs.2 e he)
    · rw [if_neg hlt]
      exact ih (i + 1) _ _ _ hshift hmsgs.1 hmsgs.2

/-- C8: every link entity recorded by the response assembler is correct:
slicing the recorded byte range out of the final answer text yields exactly
the rendered line — numbering included, trailing newline excluded — of the
message the entity's URL targets. -/
theorem c8_link_offsets (explanation : String) (convs : List (List Message))
    (e : MessageEntity) (he : e ∈ (renderAnswer explanation convs).2) :
    ∃ ci mi conv m, convs.get? ci = some conv ∧ conv.get? mi = some m ∧
      e.url = mkMessageURL m ∧
      sliceChars (renderAnswer explanation convs).1.data e.offset e.length =
        (lineBody ci mi m).data := by
  have hinv := renderConvos_invariant convs convs.length convs 0
    (explanation.data ++ askHeader.data)
    (explanation.length + askHeader.length) [] (fun k => by simp)
    (by rw [List.length_append]; rfl) (by simp)
  have he' : e ∈ (renderConvos convs.length 0
      (explanation.data ++ askHeader.data)
      (explanation.length + askHeader.length) [] convs).2.2 := he
  have hok := hinv.2 e he'
  obtain ⟨hb, ci, mi, conv, m, hc, hm, hu, hs⟩ := hok
  refine ⟨ci, mi, conv, m, hc, hm, hu, ?_⟩
  show sliceChars ((renderConvos convs.length 0
      (explanation.data ++ askHeader.data)
      (explanation.length + askHeader.length) [] convs).1 ++ askTip.data)
    e.offset e.length = _
  rw [sliceChars_append _ _ _ _ hb]
  exact hs

set_option maxRecDepth 10000 in
/-- C8 witness: the single entity rendered for one conversation holding one
message targets that message's deep link and spans exactly its rendered
line. -/
theorem c8_link_offsets_witness :
    (⟨"text_link", 40, 13, "https://t.me/c/1234567890/3"⟩ : MessageEntity) ∈
      (renderAnswer "ok" [[⟨3, -1001234567890, 1, "alice", "hi", 0⟩]]).2 ∧
    ∃ ci mi conv m,
      ([[⟨3, -1001234567890, 1, "alice", "hi", 0⟩]] :
          List (List Message)).get? ci = some conv ∧
      conv.get? mi = some m ∧
      (⟨"text_link", 40, 13, "https://t.me/c/1234567890/3"⟩ : MessageEntity).url =
        mkMessageURL m ∧
      sliceChars (renderAnswer "ok"
          [[⟨3, -1001234567890, 1, "alice", "hi", 0⟩]]).1.data 40 13 =
        (lineBody ci mi m).data :=
  ⟨by decide,
    c8_link_offsets "ok" [[⟨3, -1001234567890, 1, "alice", "hi", 0⟩]]
      ⟨"text_link", 40, 13, "https://t.me/c/1234567890/3"⟩ (by decide)⟩

end SearchBot
